import Mathlib

set_option linter.unusedSectionVars false

/-!
A shallow embedding of the ordered_multimap_t container
(ordered_multimap.hpp) together with proofs about its operations.

The C++ container keeps two cooperating substructures:

* a sequence store, std::list of (key, value) pairs, and
* a key index, std::multimap from key to a list iterator.

The embedding gives every list node a stable numeric identifier (modelling
the node address held by a list iterator).  A handle (iterator) is an
Option Nat: some i refers to the live node with identifier i, none is the
end sentinel.  The std::multimap is modelled as an association list kept
sorted by key; std::multimap places an element with a key equal to
existing ones after them (at the upper bound), which tableInsert mirrors.
Member functions that dereference possibly invalid iterators return
Option: none marks an execution that the source leaves undefined.
-/

/-- One node of the sequence store: its stable identifier together with the
stored key and value. -/
structure Entry (K V : Type) where
  id : Nat
  key : K
  val : V
deriving DecidableEq

/-- The container state: the sequence store, the key index (sorted by key,
entries with equal keys in order of arrival), and a counter supplying
fresh node identifiers. -/
structure Omm (K V : Type) where
  list : List (Entry K V)
  table : List (K × Nat)
  nextId : Nat
deriving DecidableEq

namespace Omm

variable {K V : Type} [LinearOrder K] [DecidableEq V]

/-- The (key, value) view of a node, what a dereferenced iterator shows. -/
def kv (e : Entry K V) : K × V := (e.key, e.val)

/-- The default constructed container: both substructures empty. -/
def empty : Omm K V := ⟨[], [], 0⟩

/-- table.insert for the std::multimap: the new pair is placed before the
first existing entry with a strictly greater key, hence after every entry
with a key less than or equal to it (insertion at the upper bound, the
std::multimap behaviour for equivalent keys). -/
def tableInsert (t : List (K × Nat)) (k : K) (i : Nat) : List (K × Nat) :=
  match t with
  | [] => [(k, i)]
  | p :: rest => if k < p.1 then (k, i) :: p :: rest else p :: tableInsert rest k i

/-- table.equal_range(key) as the segment of the sorted index between the
lower bound (first entry whose key is not less than key) and the upper
bound (first entry whose key is greater than key). -/
def tableRange (t : List (K × Nat)) (k : K) : List (K × Nat) :=
  (t.dropWhile (fun p => decide (p.1 < k))).takeWhile (fun p => decide (¬ k < p.1))

/-- Removal of the whole segment [lower bound, upper bound), the effect of
table.erase(range.first, range.second). -/
def tableEraseRange (t : List (K × Nat)) (k : K) : List (K × Nat) :=
  t.takeWhile (fun p => decide (p.1 < k)) ++
    (t.dropWhile (fun p => decide (p.1 < k))).dropWhile (fun p => decide (¬ k < p.1))

/-- table.find(key): the first entry with an equivalent key, or none for
table.end() (the tree search lands on the leftmost equivalent entry). -/
def tableFind (t : List (K × Nat)) (k : K) : Option (K × Nat) :=
  t.find? (fun p => decide (p.1 = k))

/-- std::next of the live node with identifier i: the node after it in the
sequence store, none when i is the last node. -/
def listSucc (l : List (Entry K V)) (i : Nat) : Option Nat :=
  match l with
  | [] => none
  | e :: rest => if e.id = i then rest.head?.map Entry.id else listSucc rest i

/-- list.erase of the node with identifier i (removes that single node). -/
def listErase (l : List (Entry K V)) (i : Nat) : List (Entry K V) :=
  l.eraseP (fun e => decide (e.id = i))

/-- insert(key, value): append a node to the sequence store, add the
matching index entry, return an iterator to the new node. -/
def insert (s : Omm K V) (k : K) (v : V) : Omm K V × Option Nat :=
  (⟨s.list ++ [⟨s.nextId, k, v⟩], tableInsert s.table k s.nextId, s.nextId + 1⟩,
    some s.nextId)

/-- emplace(key, args...): constructs the value in place; at the level of
this value semantics it coincides with insert of the constructed value. -/
def emplace (s : Omm K V) (k : K) (v : V) : Omm K V × Option Nat := insert s k v

/-- Overwrite the value of the node with identifier i (the write performed
through a stored iterator). -/
def setVal (l : List (Entry K V)) (i : Nat) (v : V) : List (Entry K V) :=
  l.map (fun e => if e.id = i then ⟨e.id, e.key, v⟩ else e)

/-- update(key, value): with no index entry for the key it behaves like
insert; otherwise it writes the value through every index entry of the
range and returns the iterator stored in the first one. -/
def update (s : Omm K V) (k : K) (v : V) : Omm K V × Option Nat :=
  match tableRange s.table k with
  | [] => insert s k v
  | p :: rest =>
    (⟨(p :: rest).foldl (fun l q => setVal l q.2 v) s.list, s.table, s.nextId⟩,
      some p.2)

/-- The loop of erase(key): next is set to std::next of the first erased
node while still in place; at later nodes next no longer compares equal to
list.end() (even when the node it refers to has meanwhile been erased, as
the source compares the dangling iterator), so it is kept. -/
def eraseKeyGo (l : List (Entry K V)) (next : Option Nat) :
    List (K × Nat) → List (Entry K V) × Option Nat
  | [] => (l, next)
  | p :: rest =>
    match next with
    | none => eraseKeyGo (listErase l p.2) (listSucc l p.2) rest
    | some j => eraseKeyGo (listErase l p.2) (some j) rest

/-- erase(key): remove every node referenced by the index range of the key
from the sequence store, drop the whole index range, and return the
iterator captured by the loop (end sentinel when the key is absent). -/
def eraseKey (s : Omm K V) (k : K) : Omm K V × Option Nat :=
  match tableRange s.table k with
  | [] => (s, none)
  | p :: rest =>
    let res := eraseKeyGo s.list none (p :: rest)
    (⟨res.1, tableEraseRange s.table k, s.nextId⟩, res.2)

/-- erase(iterator): reads the key of the node the iterator refers to
(undefined when the iterator is the end sentinel or dangling, hence the
outer Option), looks the key up in the index with table.find, advances the
given iterator, then erases the node stored in the found index entry and
that index entry itself. -/
def eraseIter (s : Omm K V) (h : Nat) : Option (Omm K V × Option Nat) :=
  match s.list.find? (fun e => decide (e.id = h)) with
  | none => none
  | some e =>
    match tableFind s.table e.key with
    | none => some (s, none)
    | some p =>
      some (⟨listErase s.list p.2,
              s.table.eraseP (fun q => decide (q.1 = e.key)), s.nextId⟩,
        listSucc s.list h)

/-- The loop of erase(key, value): walk the index range of the key, and at
the first entry whose referenced node carries the requested value erase
that node and that single index entry (index entries of a well formed
state are pairwise distinct, so erasing the first occurrence of the pair
is exact). -/
def eraseKVGo (s : Omm K V) (v : V) : List (K × Nat) → Option (Omm K V × Nat)
  | [] => some (s, 0)
  | p :: rest =>
    match s.list.find? (fun e => decide (e.id = p.2)) with
    | none => none
    | some e =>
      if e.val = v then
        some (⟨listErase s.list p.2,
                s.table.eraseP (fun q => decide (q = p)), s.nextId⟩, 1)
      else eraseKVGo s v rest

/-- erase(key, value): remove the first index-range entry whose node holds
the value; the result counts the removed elements (0 or 1). -/
def eraseKV (s : Omm K V) (k : K) (v : V) : Option (Omm K V × Nat) :=
  eraseKVGo s v (tableRange s.table k)

/-- The loop of extract(key): push the value of each referenced node and
erase the node, walking the index range in index order. -/
def extractGo : List (Entry K V) → List V → List (K × Nat) →
    Option (List (Entry K V) × List V)
  | l, acc, [] => some (l, acc)
  | l, acc, p :: rest =>
    match l.find? (fun e => decide (e.id = p.2)) with
    | none => none
    | some e => extractGo (listErase l p.2) (acc ++ [e.val]) rest

/-- extract(key): collect and remove every value of the key, then drop the
whole index range. -/
def extract (s : Omm K V) (k : K) : Option (Omm K V × List V) :=
  match extractGo s.list [] (tableRange s.table k) with
  | none => none
  | some (l, vs) => some (⟨l, tableEraseRange s.table k, s.nextId⟩, vs)

/-- std::next(list.end()) as the source computes it in equal_range: the
operation is formally undefined, but on the circular doubly linked node
structure used by the standard library implementations the sentinel points
back to the first node (or to itself when the list is empty); the
embedding fixes that concrete behaviour. -/
def listNextOfEnd (l : List (Entry K V)) : Option Nat := l.head?.map Entry.id

/-- equal_range(key): for an empty index range the pair (end, end);
otherwise the iterator stored in the first index entry of the range
together with std::next of the iterator stored in the index entry at the
upper bound (or std::next of list.end() when the upper bound is
table.end()). -/
def equalRange (s : Omm K V) (k : K) : Option Nat × Option Nat :=
  match tableRange s.table k with
  | [] => (none, none)
  | p :: _ =>
    (some p.2,
      match s.table.find? (fun q => decide (k < q.1)) with
      | none => listNextOfEnd s.list
      | some q => listSucc s.list q.2)

/-- merge(other): append every node of the other container, in its
sequence order, through the same path as insert (fresh nodes, fresh index
entries); the other container is cleared. -/
def merge (s t : Omm K V) : Omm K V × Omm K V :=
  (t.list.foldl (fun acc e => (Omm.insert acc e.key e.val).1) s,
    ⟨[], [], t.nextId⟩)

/-- Stable insertion step used to model list.sort: the element goes before
the first element x for which c x e does not hold, so elements the
comparator treats as equivalent keep their relative order. -/
def insertOrd (c : Entry K V → Entry K V → Bool) (e : Entry K V) :
    List (Entry K V) → List (Entry K V)
  | [] => [e]
  | x :: xs => if c x e then x :: insertOrd c e xs else e :: x :: xs

/-- Stable sort of the sequence store.  std::list::sort performs a stable
merge sort; for a comparator that is a strict weak ordering the stably
sorted permutation is unique, so this stable insertion sort computes the
same list. -/
def sortList (c : Entry K V → Entry K V → Bool) : List (Entry K V) → List (Entry K V)
  | [] => []
  | x :: xs => insertOrd c x (sortList c xs)

/-- sort(fun): reorder the sequence store in place with the caller
supplied comparator on (key, value) pairs; the key index is untouched. -/
def sortOp (s : Omm K V) (cmp : K × V → K × V → Bool) : Omm K V :=
  ⟨sortList (fun a b => cmp (kv a) (kv b)) s.list, s.table, s.nextId⟩

/-- clear(): empty both substructures. -/
def clear (s : Omm K V) : Omm K V := ⟨[], [], s.nextId⟩

/-- count(key): the distance across the index range of the key. -/
def count (s : Omm K V) (k : K) : Nat := (tableRange s.table k).length

/-- has(key): whether table.find(key) differs from table.end(). -/
def has (s : Omm K V) (k : K) : Bool := (tableFind s.table k).isSome

/-- front(): list.begin(), which for an empty sequence store is the end
sentinel. -/
def front (s : Omm K V) : Option Nat := s.list.head?.map Entry.id

/-- end(): the end sentinel handle. -/
def endHandle : Option Nat := (none : Option Nat)

/-- to_vector(): the (key, value) pairs in sequence order. -/
def to_vector (s : Omm K V) : List (K × V) := s.list.map kv

/-- The position in the sequence store a handle stands at (the length of
the list for the end sentinel, and also for a dangling handle). -/
def posOf (l : List (Entry K V)) (h : Option Nat) : Nat :=
  match h with
  | none => l.length
  | some i => l.findIdx (fun e => decide (e.id = i))

/-- The nodes visited when iterating from handle b to handle e with
repeated increments, assuming e is not strictly before b. -/
def seqSlice (l : List (Entry K V)) (b e : Option Nat) : List (Entry K V) :=
  (l.drop (posOf l b)).take (posOf l e - posOf l b)

/-- Run a sequence of insert calls on the empty container. -/
def runInserts (ops : List (K × V)) : Omm K V :=
  ops.foldl (fun s p => (Omm.insert s p.1 p.2).1) Omm.empty

/-- The container states reachable from the empty container by the public
operations. -/
inductive Reach : Omm K V → Prop where
  | base : Reach Omm.empty
  | ins (s : Omm K V) (k : K) (v : V) : Reach s → Reach (Omm.insert s k v).1
  | emp (s : Omm K V) (k : K) (v : V) : Reach s → Reach (Omm.emplace s k v).1
  | upd (s : Omm K V) (k : K) (v : V) : Reach s → Reach (Omm.update s k v).1
  | delKey (s : Omm K V) (k : K) : Reach s → Reach (Omm.eraseKey s k).1
  | delIter (s : Omm K V) (h : Nat) (r : Omm K V × Option Nat) :
      Reach s → Omm.eraseIter s h = some r → Reach r.1
  | delKV (s : Omm K V) (k : K) (v : V) (r : Omm K V × Nat) :
      Reach s → Omm.eraseKV s k v = some r → Reach r.1
  | extr (s : Omm K V) (k : K) (r : Omm K V × List V) :
      Reach s → Omm.extract s k = some r → Reach r.1
  | mrg (s t : Omm K V) : Reach s → Reach t → Reach (Omm.merge s t).1
  | mrgOther (s t : Omm K V) : Reach s → Reach t → Reach (Omm.merge s t).2
  | srt (s : Omm K V) (cmp : K × V → K × V → Bool) : Reach s → Reach (Omm.sortOp s cmp)
  | clr (s : Omm K V) : Reach s → Reach (Omm.clear s)

/-- Well-formedness of a container state: node identifiers are pairwise
distinct and below the fresh counter, the key index is sorted by key, and
its entries are, as a multiset, exactly the (key, identifier) pairs of the
sequence store (the 1:1 correspondence of the two substructures). -/
structure Inv (s : Omm K V) : Prop where
  nodup : (s.list.map Entry.id).Nodup
  fresh : ∀ e ∈ s.list, e.id < s.nextId
  sorted : s.table.Pairwise (fun a b => a.1 ≤ b.1)
  corr : s.table.Perm (s.list.map (fun e => (e.key, e.id)))

end Omm

namespace Omm

variable {K V : Type} [LinearOrder K] [DecidableEq V]

/-- A list is a permutation of the element found by find? consed onto the
list with that element erased. -/
theorem perm_cons_eraseP {α : Type _} {p : α → Bool} :
    ∀ {l : List α} {a : α}, l.find? p = some a → l.Perm (a :: l.eraseP p) := by
  intro l
  induction l with
  | nil => intro a h; simp at h
  | cons b t ih =>
    intro a h
    by_cases hb : p b = true
    · rw [List.find?_cons_of_pos _ hb] at h
      injection h with h
      subst h
      rw [List.eraseP_cons_of_pos hb]
    · rw [List.find?_cons_of_neg _ hb] at h
      rw [List.eraseP_cons_of_neg hb]
      exact ((ih h).cons b).trans (List.Perm.swap a b _)

/-- find? is the head of the filtered list. -/
theorem find?_eq_head?_filter {α : Type _} (p : α → Bool) :
    ∀ l : List α, l.find? p = (l.filter p).head? := by
  intro l
  induction l with
  | nil => rfl
  | cons b t ih =>
    by_cases hb : p b = true
    · rw [List.find?_cons_of_pos _ hb, List.filter_cons_of_pos hb]; rfl
    · rw [List.find?_cons_of_neg _ hb, List.filter_cons_of_neg hb, ih]

/-- Mapping commutes with filtering by a predicate on the image. -/
theorem map_filter_comm {α β : Type _} (f : α → β) (p : β → Bool) :
    ∀ l : List α, (l.filter (fun a => p (f a))).map f = (l.map f).filter p := by
  intro l
  induction l with
  | nil => rfl
  | cons b t ih =>
    by_cases hb : p (f b) = true
    · simp [List.filter_cons, hb, ih]
    · simp [List.filter_cons, hb, ih]

/-- With pairwise distinct identifiers, searching a member by its
identifier finds exactly that member. -/
theorem find?_id_of_mem {l : List (Entry K V)} {e : Entry K V}
    (hnd : (l.map Entry.id).Nodup) (he : e ∈ l) :
    l.find? (fun x => decide (x.id = e.id)) = some e := by
  induction l with
  | nil => cases he
  | cons b t ih =>
    simp only [List.map_cons, List.nodup_cons] at hnd
    rcases List.mem_cons.mp he with rfl | ht
    · exact List.find?_cons_of_pos _ (by simp)
    · have hb : ¬ ((fun x : Entry K V => decide (x.id = e.id)) b = true) := by
        simp only [decide_eq_true_eq]
        intro hbe
        exact hnd.1 (by rw [hbe]; exact List.mem_map_of_mem Entry.id ht)
      rw [@List.find?_cons_of_neg (Entry K V) (fun x => decide (x.id = e.id)) b t hb]
      exact ih hnd.2 ht

/-- With pairwise distinct identifiers, erasing the node with a given
identifier is filtering it out. -/
theorem listErase_eq_filter {l : List (Entry K V)}
    (hnd : (l.map Entry.id).Nodup) (i : Nat) :
    listErase l i = l.filter (fun e => decide (¬ e.id = i)) := by
  induction l with
  | nil => rfl
  | cons b t ih =>
    simp only [List.map_cons, List.nodup_cons] at hnd
    by_cases hb : b.id = i
    · rw [listErase, List.eraseP_cons_of_pos (by simp [hb]),
        List.filter_cons_of_neg (by simp [hb])]
      subst hb
      symm
      rw [List.filter_eq_self]
      intro e he
      simp only [decide_eq_true_eq]
      intro hei
      exact hnd.1 (by rw [← hei]; exact List.mem_map_of_mem Entry.id he)
    · rw [listErase, List.eraseP_cons_of_neg (by simp [hb]),
        List.filter_cons_of_pos (by simp [hb])]
      rw [← listErase, ih hnd.2]

/-- tableInsert puts the new pair somewhere in the index: as a multiset the
result is the new pair together with the old index. -/
theorem tableInsert_perm (t : List (K × Nat)) (k : K) (i : Nat) :
    (tableInsert t k i).Perm ((k, i) :: t) := by
  induction t with
  | nil => exact List.Perm.refl _
  | cons p rest ih =>
    by_cases h : k < p.1
    · simp only [tableInsert, if_pos h]
      exact List.Perm.refl _
    · simp only [tableInsert, if_neg h]
      exact (ih.cons p).trans (List.Perm.swap (k, i) p rest)

/-- tableInsert keeps the index sorted by key. -/
theorem tableInsert_sorted {t : List (K × Nat)} (k : K) (i : Nat)
    (hs : t.Pairwise (fun a b => a.1 ≤ b.1)) :
    (tableInsert t k i).Pairwise (fun a b => a.1 ≤ b.1) := by
  induction t with
  | nil => simp [tableInsert]
  | cons p rest ih =>
    rcases List.pairwise_cons.mp hs with ⟨hp, hrest⟩
    by_cases h : k < p.1
    · simp only [tableInsert, if_pos h]
      refine List.pairwise_cons.mpr ⟨?_, hs⟩
      intro q hq
      rcases List.mem_cons.mp hq with rfl | hq2
      · exact le_of_lt h
      · exact (le_of_lt h).trans (hp q hq2)
    · simp only [tableInsert, if_neg h]
      refine List.pairwise_cons.mpr ⟨?_, ih hrest⟩
      intro q hq
      have hmem : q ∈ (k, i) :: rest := (tableInsert_perm rest k i).mem_iff.mp hq
      rcases List.mem_cons.mp hmem with rfl | hq2
      · exact le_of_not_lt h
      · exact hp q hq2

/-- On a sorted index whose keys are all at least k, the prefix of entries
with key not above k is exactly the set of entries with key k. -/
theorem takeWhile_range_eq_filter {k : K} :
    ∀ {t : List (K × Nat)}, t.Pairwise (fun a b => a.1 ≤ b.1) →
      (∀ p ∈ t, k ≤ p.1) →
      t.takeWhile (fun p => decide (¬ k < p.1)) = t.filter (fun p => decide (p.1 = k)) := by
  intro t
  induction t with
  | nil => intro _ _; rfl
  | cons q rest ih =>
    intro hs hge
    rcases List.pairwise_cons.mp hs with ⟨hq, hrest⟩
    by_cases h : k < q.1
    · rw [List.takeWhile_cons, if_neg (by simp [h]),
        List.filter_cons_of_neg (by simp [ne_of_gt h])]
      symm
      rw [List.filter_eq_nil_iff]
      intro p hp
      simp only [decide_eq_true_eq]
      intro hpk
      have hk : q.1 ≤ k := by rw [← hpk]; exact hq p hp
      exact absurd hk (not_le_of_lt h)
    · have hqk : q.1 = k := le_antisymm (le_of_not_lt h) (hge q (List.mem_cons_self q rest))
      rw [List.takeWhile_cons, if_pos (by simp [h]), List.filter_cons_of_pos (by simp [hqk])]
      rw [ih hrest (fun p hp => hge p (List.mem_cons_of_mem q hp))]

/-- On a sorted index whose keys are all at least k, dropping the entries
with key not above k leaves exactly the entries with key other than k. -/
theorem dropWhile_range_eq_filter {k : K} :
    ∀ {t : List (K × Nat)}, t.Pairwise (fun a b => a.1 ≤ b.1) →
      (∀ p ∈ t, k ≤ p.1) →
      t.dropWhile (fun p => decide (¬ k < p.1)) = t.filter (fun p => decide (¬ p.1 = k)) := by
  intro t
  induction t with
  | nil => intro _ _; rfl
  | cons q rest ih =>
    intro hs hge
    rcases List.pairwise_cons.mp hs with ⟨hq, hrest⟩
    by_cases h : k < q.1
    · rw [List.dropWhile_cons, if_neg (by simp [h]),
        List.filter_cons_of_pos (by simp [ne_of_gt h])]
      congr 1
      symm
      rw [List.filter_eq_self]
      intro p hp
      simp only [decide_eq_true_eq]
      intro hpk
      have hk : q.1 ≤ k := by rw [← hpk]; exact hq p hp
      exact absurd hk (not_le_of_lt h)
    · have hqk : q.1 = k := le_antisymm (le_of_not_lt h) (hge q (List.mem_cons_self q rest))
      rw [List.dropWhile_cons, if_pos (by simp [h]), List.filter_cons_of_neg (by simp [hqk])]
      exact ih hrest (fun p hp => hge p (List.mem_cons_of_mem q hp))

/-- On a sorted index the equal-range segment is the set of entries whose
key is exactly k. -/
theorem tableRange_eq_filter {t : List (K × Nat)} (k : K)
    (hs : t.Pairwise (fun a b => a.1 ≤ b.1)) :
    tableRange t k = t.filter (fun p => decide (p.1 = k)) := by
  induction t with
  | nil => rfl
  | cons q rest ih =>
    rcases List.pairwise_cons.mp hs with ⟨hq, hrest⟩
    by_cases h : q.1 < k
    · rw [tableRange, List.dropWhile_cons, if_pos (by simp [h]),
        List.filter_cons_of_neg (by simp [ne_of_lt h])]
      exact ih hrest
    · rw [tableRange, List.dropWhile_cons, if_neg (by simp [h])]
      refine takeWhile_range_eq_filter hs ?_
      intro p hp
      rcases List.mem_cons.mp hp with rfl | hp2
      · exact le_of_not_lt h
      · exact (le_of_not_lt h).trans (hq p hp2)

/-- On a sorted index erasing the equal-range segment keeps exactly the
entries whose key differs from k. -/
theorem tableEraseRange_eq_filter {t : List (K × Nat)} (k : K)
    (hs : t.Pairwise (fun a b => a.1 ≤ b.1)) :
    tableEraseRange t k = t.filter (fun p => decide (¬ p.1 = k)) := by
  induction t with
  | nil => rfl
  | cons q rest ih =>
    rcases List.pairwise_cons.mp hs with ⟨hq, hrest⟩
    by_cases h : q.1 < k
    · rw [tableEraseRange, List.takeWhile_cons, if_pos (by simp [h]),
        List.dropWhile_cons, if_pos (by simp [h]),
        List.filter_cons_of_pos (by simp [ne_of_lt h])]
      rw [List.cons_append]
      congr 1
      exact ih hrest
    · rw [tableEraseRange, List.takeWhile_cons, if_neg (by simp [h]),
        List.dropWhile_cons, if_neg (by simp [h]), List.nil_append]
      refine dropWhile_range_eq_filter hs ?_
      intro p hp
      rcases List.mem_cons.mp hp with rfl | hp2
      · exact le_of_not_lt h
      · exact (le_of_not_lt h).trans (hq p hp2)

/-- The equal-range segment is a sublist of the index. -/
theorem tableRange_sublist (t : List (K × Nat)) (k : K) :
    (tableRange t k).Sublist t :=
  (List.takeWhile_sublist _).trans (List.dropWhile_sublist _)

/-- The map to the (key, identifier) view of the sequence store. -/
def kidx (e : Entry K V) : K × Nat := (e.key, e.id)

/-- Distinct identifiers make the (key, identifier) pairs distinct. -/
theorem kidx_nodup {l : List (Entry K V)}
    (hnd : (l.map Entry.id).Nodup) : (l.map kidx).Nodup := by
  have hsnd : (l.map kidx).map Prod.snd = l.map Entry.id := by
    rw [List.map_map]; rfl
  exact List.Nodup.of_map Prod.snd (by rw [hsnd]; exact hnd)

/-- In a well formed state the stored iterators of the index are pairwise
distinct. -/
theorem table_ids_nodup {s : Omm K V} (hI : Inv s) :
    (s.table.map Prod.snd).Nodup := by
  have hperm := hI.corr.map Prod.snd
  rw [(hperm.nodup_iff)]
  have hsnd : (s.list.map (fun e => (e.key, e.id))).map Prod.snd = s.list.map Entry.id := by
    rw [List.map_map]; rfl
  rw [hsnd]
  exact hI.nodup

/-- In a well formed state the index holds (k, i) exactly when the
sequence store holds a node with key k and identifier i. -/
theorem mem_table_iff {s : Omm K V} (hI : Inv s) {k : K} {i : Nat} :
    (k, i) ∈ s.table ↔ ∃ e ∈ s.list, e.key = k ∧ e.id = i := by
  rw [hI.corr.mem_iff, List.mem_map]
  constructor
  · rintro ⟨e, he, heq⟩
    exact ⟨e, he, congrArg Prod.fst heq, congrArg Prod.snd heq⟩
  · rintro ⟨e, he, hk, hi⟩
    exact ⟨e, he, by rw [hk, hi]⟩

/-- Each index entry of a well formed state refers to a live node with the
same key. -/
theorem entry_of_mem_table {s : Omm K V} (hI : Inv s) {p : K × Nat}
    (hp : p ∈ s.table) : ∃ e ∈ s.list, e.key = p.1 ∧ e.id = p.2 :=
  (mem_table_iff hI).mp (by rw [← Prod.mk.eta (p := p)] at hp; exact hp)

/-- An identifier determines the node of a well formed sequence store. -/
theorem id_unique {l : List (Entry K V)} (hnd : (l.map Entry.id).Nodup)
    {e1 e2 : Entry K V} (h1 : e1 ∈ l) (h2 : e2 ∈ l) (h : e1.id = e2.id) :
    e1 = e2 :=
  List.inj_on_of_nodup_map hnd h1 h2 h

/-- For a live node, membership of its identifier in the equal-range
segment of key k says exactly that the node carries key k. -/
theorem mem_range_ids_iff {s : Omm K V} (hI : Inv s) {k : K}
    {e : Entry K V} (he : e ∈ s.list) :
    e.id ∈ (tableRange s.table k).map Prod.snd ↔ e.key = k := by
  rw [tableRange_eq_filter k hI.sorted, List.mem_map]
  constructor
  · rintro ⟨p, hp, hpe⟩
    rcases List.mem_filter.mp hp with ⟨hpt, hpk⟩
    simp only [decide_eq_true_eq] at hpk
    rcases entry_of_mem_table hI hpt with ⟨e2, he2, hk2, hi2⟩
    have : e2 = e := id_unique hI.nodup he2 he (by rw [hi2, hpe])
    rw [← this, hk2, hpk]
  · intro hk
    refine ⟨(k, e.id), List.mem_filter.mpr ⟨?_, by simp⟩, rfl⟩
    exact (mem_table_iff hI).mpr ⟨e, he, hk, rfl⟩

/-- The equal-range segment of a well formed state has pairwise distinct
stored iterators. -/
theorem range_ids_nodup {s : Omm K V} (hI : Inv s) (k : K) :
    ((tableRange s.table k).map Prod.snd).Nodup :=
  ((tableRange_sublist s.table k).map Prod.snd).nodup (table_ids_nodup hI)

/-- Every stored iterator of the equal-range segment refers to a live
node. -/
theorem range_ids_live {s : Omm K V} (hI : Inv s) (k : K) :
    ∀ i ∈ (tableRange s.table k).map Prod.snd, ∃ e ∈ s.list, e.id = i := by
  intro i hi
  rcases List.mem_map.mp hi with ⟨p, hp, hpe⟩
  rcases entry_of_mem_table hI ((tableRange_sublist s.table k).mem hp) with ⟨e, he, _, hid⟩
  exact ⟨e, he, by rw [hid, hpe]⟩

/-- count(key) of a well formed state is the number of nodes with the
key. -/
theorem count_eq_filter_length {s : Omm K V} (hI : Inv s) (k : K) :
    Omm.count s k = (s.list.filter (fun e => decide (e.key = k))).length := by
  rw [Omm.count, tableRange_eq_filter k hI.sorted,
    (hI.corr.filter (fun p => decide (p.1 = k))).length_eq]
  rw [← map_filter_comm (fun e : Entry K V => (e.key, e.id)) (fun p => decide (p.1 = k))]
  rw [List.length_map]

/-- has(key) of a well formed state says that some node carries the
key. -/
theorem has_iff {s : Omm K V} (hI : Inv s) (k : K) :
    Omm.has s k = true ↔ ∃ e ∈ s.list, e.key = k := by
  rw [Omm.has, tableFind, List.find?_isSome]
  constructor
  · rintro ⟨p, hp, hpk⟩
    simp only [decide_eq_true_eq] at hpk
    rcases entry_of_mem_table hI hp with ⟨e, he, hk, _⟩
    exact ⟨e, he, by rw [hk, hpk]⟩
  · rintro ⟨e, he, hk⟩
    exact ⟨(k, e.id), (mem_table_iff hI).mpr ⟨e, he, hk, rfl⟩, by simp⟩

/-- The empty container is well formed. -/
theorem inv_empty : Inv (empty : Omm K V) := by
  constructor
  · simp [empty]
  · intro e he; simp [empty] at he
  · simp [empty]
  · simp [empty]

/-- insert keeps the state well formed. -/
theorem inv_insert {s : Omm K V} (hI : Inv s) (k : K) (v : V) :
    Inv (Omm.insert s k v).1 := by
  constructor
  · simp only [Omm.insert, List.map_append, List.map_cons, List.map_nil]
    rw [← List.concat_eq_append]
    refine List.Nodup.concat ?_ hI.nodup
    intro hmem
    rcases List.mem_map.mp hmem with ⟨e, he, hid⟩
    exact absurd (hid ▸ hI.fresh e he) (lt_irrefl _)
  · intro e he
    simp only [Omm.insert] at he ⊢
    rcases List.mem_append.mp he with h1 | h2
    · exact (hI.fresh e h1).trans (Nat.lt_succ_self _)
    · have he2 : e = ⟨s.nextId, k, v⟩ := by simpa using h2
      rw [he2]
      exact Nat.lt_succ_self _
  · exact tableInsert_sorted k s.nextId hI.sorted
  · simp only [Omm.insert]
    refine (tableInsert_perm s.table k s.nextId).trans ?_
    have hmap : (s.list ++ [(⟨s.nextId, k, v⟩ : Entry K V)]).map (fun e => (e.key, e.id))
        = s.list.map (fun e => (e.key, e.id)) ++ [(k, s.nextId)] := by
      simp
    rw [hmap]
    exact (hI.corr.cons (k, s.nextId)).trans (List.perm_append_singleton _ _).symm

/-- clear keeps the state well formed. -/
theorem inv_clear (s : Omm K V) : Inv (clear s) := by
  constructor
  · simp [clear]
  · intro e he; simp [clear] at he
  · simp [clear]
  · simp [clear]

/-- The stable insertion step is a permutation. -/
theorem insertOrd_perm (c : Entry K V → Entry K V → Bool) (e : Entry K V) :
    ∀ l : List (Entry K V), (insertOrd c e l).Perm (e :: l) := by
  intro l
  induction l with
  | nil => exact List.Perm.refl _
  | cons x xs ih =>
    by_cases h : c x e = true
    · simp only [insertOrd, if_pos h]
      exact (ih.cons x).trans (List.Perm.swap e x xs)
    · simp only [insertOrd, if_neg h]
      exact List.Perm.refl _

/-- The stable sort is a permutation of its input. -/
theorem sortList_perm (c : Entry K V → Entry K V → Bool) :
    ∀ l : List (Entry K V), (sortList c l).Perm l := by
  intro l
  induction l with
  | nil => exact List.Perm.refl _
  | cons x xs ih =>
    exact (insertOrd_perm c x (sortList c xs)).trans (ih.cons x)

/-- sort keeps the state well formed: only the order of the sequence store
changes. -/
theorem inv_sortOp {s : Omm K V} (hI : Inv s) (cmp : K × V → K × V → Bool) :
    Inv (sortOp s cmp) := by
  have hp : (sortList (fun a b => cmp (kv a) (kv b)) s.list).Perm s.list :=
    sortList_perm _ _
  constructor
  · simp only [sortOp]
    rw [(hp.map Entry.id).nodup_iff]
    exact hI.nodup
  · intro e he
    simp only [sortOp] at he ⊢
    exact hI.fresh e (hp.mem_iff.mp he)
  · exact hI.sorted
  · simp only [sortOp]
    exact hI.corr.trans (hp.map _).symm

/-- The value overwrite of an index range, as a single map over the
sequence store. -/
theorem foldl_setVal_eq_map (v : V) :
    ∀ (rng : List (K × Nat)) (l : List (Entry K V)),
      rng.foldl (fun l q => setVal l q.2 v) l
        = l.map (fun e =>
            if e.id ∈ rng.map Prod.snd then ⟨e.id, e.key, v⟩ else e) := by
  intro rng
  induction rng with
  | nil =>
    intro l
    simp
  | cons p rest ih =>
    intro l
    rw [List.foldl_cons, ih (setVal l p.2 v), setVal, List.map_map]
    refine List.map_congr_left ?_
    intro e he
    by_cases h : e.id = p.2
    · simp [Function.comp, h, ite_self]
    · simp only [Function.comp, if_neg h, List.mem_cons]
      by_cases h2 : e.id ∈ rest.map Prod.snd
      · simp [h2]
      · simp [h2, h]

/-- Two container states with the same fields are equal. -/
theorem omm_eq {s t : Omm K V} (h1 : s.list = t.list) (h2 : s.table = t.table)
    (h3 : s.nextId = t.nextId) : s = t := by
  cases s; cases t; simp_all

/-- Overwriting values does not change the (key, identifier) view. -/
theorem bigmap_map_kidx (v : V) (ids : List Nat) (l : List (Entry K V)) :
    (l.map (fun e => if e.id ∈ ids then (⟨e.id, e.key, v⟩ : Entry K V) else e)).map kidx
      = l.map kidx := by
  rw [List.map_map]
  refine List.map_congr_left ?_
  intro e he
  by_cases h : e.id ∈ ids <;> simp [Function.comp, kidx, h]

/-- Overwriting values does not change identifiers. -/
theorem bigmap_map_id (v : V) (ids : List Nat) (l : List (Entry K V)) :
    (l.map (fun e => if e.id ∈ ids then (⟨e.id, e.key, v⟩ : Entry K V) else e)).map Entry.id
      = l.map Entry.id := by
  rw [List.map_map]
  refine List.map_congr_left ?_
  intro e he
  by_cases h : e.id ∈ ids <;> simp [Function.comp, h]

/-- update keeps the state well formed. -/
theorem inv_update {s : Omm K V} (hI : Inv s) (k : K) (v : V) :
    Inv (update s k v).1 := by
  unfold update
  split
  · exact inv_insert hI k v
  next p rest htr =>
    rw [foldl_setVal_eq_map]
    constructor
    · rw [bigmap_map_id]
      exact hI.nodup
    · intro e he
      rcases List.mem_map.mp he with ⟨e0, he0, hmap⟩
      have hid : e.id = e0.id := by
        rw [← hmap]
        split <;> rfl
      rw [hid]
      exact hI.fresh e0 he0
    · exact hI.sorted
    · rw [show (fun e : Entry K V => (e.key, e.id)) = kidx from rfl, bigmap_map_kidx]
      exact hI.corr

/-- Removing from a well formed state every node with key k together with
the whole index segment of k yields a well formed state. -/
theorem inv_removeKey {s : Omm K V} (hI : Inv s) (k : K) :
    Inv ⟨s.list.filter (fun e => decide (¬ e.key = k)),
      tableEraseRange s.table k, s.nextId⟩ := by
  constructor
  · exact ((List.filter_sublist s.list).map Entry.id).nodup hI.nodup
  · intro e he
    exact hI.fresh e (List.mem_filter.mp he).1
  · rw [tableEraseRange_eq_filter k hI.sorted]
    exact List.Pairwise.sublist (List.filter_sublist s.table) hI.sorted
  · rw [tableEraseRange_eq_filter k hI.sorted]
    refine (hI.corr.filter _).trans ?_
    rw [show (fun e : Entry K V => (e.key, e.id)) = kidx from rfl,
      ← map_filter_comm kidx (fun q => decide (¬ q.1 = k)) s.list]
    exact List.Perm.refl _

/-- Removing a single node and a single index entry found by a search
keeps the state well formed, provided the found entry refers to that
node. -/
theorem inv_remove_one {s : Omm K V} (hI : Inv s) {p : K × Nat}
    {pr : K × Nat → Bool} (hfind : s.table.find? pr = some p) :
    Inv ⟨listErase s.list p.2, s.table.eraseP pr, s.nextId⟩ := by
  have hp : p ∈ s.table := List.mem_of_find?_eq_some hfind
  rcases entry_of_mem_table hI hp with ⟨e0, he0, hk0, hi0⟩
  have hfl : s.list.find? (fun x => decide (x.id = p.2)) = some e0 := by
    rw [← hi0]
    exact find?_id_of_mem hI.nodup he0
  have hlperm : s.list.Perm (e0 :: listErase s.list p.2) := by
    rw [listErase, ← hi0]
    exact perm_cons_eraseP (by rw [hi0]; exact hfl)
  constructor
  · exact ((List.eraseP_sublist s.list).map Entry.id).nodup hI.nodup
  · intro e he
    exact hI.fresh e ((List.eraseP_sublist s.list).mem he)
  · exact List.Pairwise.sublist (List.eraseP_sublist s.table) hI.sorted
  · have htperm : s.table.Perm (p :: s.table.eraseP pr) := perm_cons_eraseP hfind
    have hmapperm : (s.list.map (fun e => (e.key, e.id))).Perm
        (p :: (listErase s.list p.2).map (fun e => (e.key, e.id))) := by
      have := hlperm.map (fun e : Entry K V => (e.key, e.id))
      simp only [List.map_cons] at this
      rw [hk0, hi0] at this
      rw [Prod.mk.eta] at this
      exact this
    exact (htperm.symm.trans (hI.corr.trans hmapperm)).cons_inv

/-- The sequence store produced by the erase(key) loop is the iterated
single-node erasure over the stored iterators of the range. -/
theorem eraseKeyGo_list :
    ∀ (rng : List (K × Nat)) (l : List (Entry K V)) (next : Option Nat),
      (eraseKeyGo l next rng).1 = rng.foldl (fun l p => listErase l p.2) l := by
  intro rng
  induction rng with
  | nil => intro l next; rfl
  | cons p rest ih =>
    intro l next
    cases next with
    | none => exact ih (listErase l p.2) (listSucc l p.2)
    | some j => exact ih (listErase l p.2) (some j)

/-- Iterated single-node erasure along a list of identifiers filters all
of them out, when identifiers are pairwise distinct. -/
theorem foldl_listErase_eq_filter :
    ∀ (rng : List (K × Nat)) (l : List (Entry K V)),
      (l.map Entry.id).Nodup →
      rng.foldl (fun l p => listErase l p.2) l
        = l.filter (fun e => decide (¬ e.id ∈ rng.map Prod.snd)) := by
  intro rng
  induction rng with
  | nil =>
    intro l hnd
    rw [List.foldl_nil]
    symm
    rw [List.filter_eq_self]
    intro e he
    simp
  | cons p rest ih =>
    intro l hnd
    rw [List.foldl_cons, ih (listErase l p.2)
        (((List.eraseP_sublist l).map Entry.id).nodup hnd),
      listErase_eq_filter hnd, List.filter_filter]
    refine List.filter_congr ?_
    intro e he
    by_cases h1 : e.id = p.2 <;> by_cases h2 : e.id ∈ rest.map Prod.snd <;>
      simp [h1, h2]

/-- The sequence store after erase(key) on a well formed state: exactly
the nodes with a different key remain, in unchanged relative order. -/
theorem eraseKey_list {s : Omm K V} (hI : Inv s) (k : K) :
    (eraseKey s k).1.list = s.list.filter (fun e => decide (¬ e.key = k)) := by
  unfold eraseKey
  split
  next htr =>
    symm
    rw [List.filter_eq_self]
    intro e he
    simp only [decide_eq_true_eq]
    intro hk
    have : e.id ∈ (tableRange s.table k).map Prod.snd :=
      (mem_range_ids_iff hI he).mpr hk
    rw [htr] at this
    cases this
  next p rest htr =>
    show (eraseKeyGo s.list none (p :: rest)).1 = _
    rw [eraseKeyGo_list, foldl_listErase_eq_filter _ _ hI.nodup, ← htr]
    refine List.filter_congr ?_
    intro e he
    by_cases hk : e.key = k
    · simp [(mem_range_ids_iff hI he).mpr hk, hk]
    · have : ¬ e.id ∈ (tableRange s.table k).map Prod.snd := by
        intro hmem
        exact hk ((mem_range_ids_iff hI he).mp hmem)
      simp [this, hk]

/-- The key index after erase(key) on a well formed state: exactly the
index entries with a different key remain. -/
theorem eraseKey_table {s : Omm K V} (hI : Inv s) (k : K) :
    (eraseKey s k).1.table = s.table.filter (fun p => decide (¬ p.1 = k)) := by
  unfold eraseKey
  split
  next htr =>
    symm
    rw [List.filter_eq_self]
    intro p hp
    simp only [decide_eq_true_eq]
    intro hk
    have hmem : p ∈ tableRange s.table k := by
      rw [tableRange_eq_filter k hI.sorted]
      exact List.mem_filter.mpr ⟨hp, by simp [hk]⟩
    rw [htr] at hmem
    cases hmem
  next p rest htr =>
    show tableEraseRange s.table k = _
    exact tableEraseRange_eq_filter k hI.sorted

/-- erase(key) does not touch the identifier counter. -/
theorem eraseKey_nextId (s : Omm K V) (k : K) :
    (eraseKey s k).1.nextId = s.nextId := by
  unfold eraseKey
  split
  next => rfl
  next => rfl

/-- erase(key) keeps the state well formed. -/
theorem inv_eraseKey {s : Omm K V} (hI : Inv s) (k : K) :
    Inv (eraseKey s k).1 := by
  have heq : (eraseKey s k).1
      = ⟨s.list.filter (fun e => decide (¬ e.key = k)),
          tableEraseRange s.table k, s.nextId⟩ := by
    refine omm_eq (eraseKey_list hI k) ?_ (eraseKey_nextId s k)
    rw [eraseKey_table hI k, tableEraseRange_eq_filter k hI.sorted]
  rw [heq]
  exact inv_removeKey hI k


/-- Step equation of the extract loop when the referenced node is live. -/
theorem extractGo_cons_some {l : List (Entry K V)} {p : K × Nat} {e : Entry K V}
    (hf : l.find? (fun x => decide (x.id = p.2)) = some e) (acc : List V)
    (rest : List (K × Nat)) :
    extractGo l acc (p :: rest)
      = extractGo (listErase l p.2) (acc ++ [e.val]) rest := by
  simp only [extractGo, hf]

/-- On inputs whose referenced nodes are live and pairwise distinct the
extract loop succeeds and removes exactly the referenced nodes. -/
theorem extractGo_total :
    ∀ (rng : List (K × Nat)) (l : List (Entry K V)) (acc : List V),
      (l.map Entry.id).Nodup → (rng.map Prod.snd).Nodup →
      (∀ i ∈ rng.map Prod.snd, ∃ e ∈ l, e.id = i) →
      ∃ vs, extractGo l acc rng
        = some (l.filter (fun e => decide (¬ e.id ∈ rng.map Prod.snd)), vs) := by
  intro rng
  induction rng with
  | nil =>
    intro l acc hnd _ _
    refine ⟨acc, ?_⟩
    have hf : l.filter
        (fun e => decide (¬ e.id ∈ ([] : List (K × Nat)).map Prod.snd)) = l := by
      rw [List.filter_eq_self]
      intro e he
      simp
    rw [hf]
    rfl
  | cons p rest ih =>
    intro l acc hnd hrnd hlive
    obtain ⟨e, he, hei⟩ := hlive p.2 (by simp)
    have hfind : l.find? (fun x => decide (x.id = p.2)) = some e := by
      rw [← hei]
      exact find?_id_of_mem hnd he
    simp only [List.map_cons, List.nodup_cons] at hrnd
    obtain ⟨vs, hrec⟩ := ih (listErase l p.2) (acc ++ [e.val])
      (((List.eraseP_sublist l).map Entry.id).nodup hnd) hrnd.2
      (by
        intro i hi
        obtain ⟨e2, he2, hei2⟩ := hlive i (by simp [hi])
        refine ⟨e2, ?_, hei2⟩
        rw [listErase_eq_filter hnd]
        refine List.mem_filter.mpr ⟨he2, ?_⟩
        simp only [decide_eq_true_eq]
        intro hid
        apply hrnd.1
        have hpi : p.2 = i := by rw [← hid, hei2]
        rw [hpi]
        exact hi)
    have hff : (listErase l p.2).filter (fun e => decide (¬ e.id ∈ rest.map Prod.snd))
        = l.filter (fun e => decide (¬ e.id ∈ (p :: rest).map Prod.snd)) := by
      rw [listErase_eq_filter hnd, List.filter_filter]
      refine List.filter_congr ?_
      intro e2 he2
      by_cases h1 : e2.id = p.2 <;> by_cases h2 : e2.id ∈ rest.map Prod.snd <;>
        simp [h1, h2]
    refine ⟨vs, ?_⟩
    rw [extractGo_cons_some hfind, hrec, hff]

/-- extract(key) on a well formed state succeeds; the remaining sequence
store is the original one with every node of the key filtered out, and the
whole index segment of the key is dropped. -/
theorem extract_some {s : Omm K V} (hI : Inv s) (k : K) :
    ∃ vs, extract s k
      = some (⟨s.list.filter (fun e => decide (¬ e.key = k)),
          tableEraseRange s.table k, s.nextId⟩, vs) := by
  obtain ⟨vs, hgo⟩ := extractGo_total (tableRange s.table k) s.list [] hI.nodup
    (range_ids_nodup hI k) (range_ids_live hI k)
  have hfk : s.list.filter
      (fun e => decide (¬ e.id ∈ (tableRange s.table k).map Prod.snd))
      = s.list.filter (fun e => decide (¬ e.key = k)) := by
    refine List.filter_congr ?_
    intro e he
    by_cases hk : e.key = k
    · simp [(mem_range_ids_iff hI he).mpr hk, hk]
    · have hnm : ¬ e.id ∈ (tableRange s.table k).map Prod.snd := by
        intro hmem
        exact hk ((mem_range_ids_iff hI he).mp hmem)
      simp [hnm, hk]
  refine ⟨vs, ?_⟩
  unfold extract
  rw [hgo, hfk]

/-- extract keeps the state well formed. -/
theorem inv_extract {s : Omm K V} (hI : Inv s) {k : K} {r : Omm K V × List V}
    (he : extract s k = some r) : Inv r.1 := by
  obtain ⟨vs, hex⟩ := extract_some hI k
  rw [hex] at he
  injection he with he
  rw [← he]
  exact inv_removeKey hI k

/-- erase(iterator) keeps the state well formed. -/
theorem inv_eraseIter {s : Omm K V} (hI : Inv s) {h : Nat}
    {r : Omm K V × Option Nat} (he : eraseIter s h = some r) : Inv r.1 := by
  cases hf : s.list.find? (fun e => decide (e.id = h)) with
  | none =>
    simp only [eraseIter, hf] at he
    exact Option.noConfusion he
  | some e =>
    cases ht : tableFind s.table e.key with
    | none =>
      simp only [eraseIter, hf, ht, Option.some.injEq] at he
      rw [← he]
      exact hI
    | some p =>
      simp only [eraseIter, hf, ht, Option.some.injEq] at he
      rw [← he]
      exact inv_remove_one hI ht

/-- The erase(key, value) loop keeps the state well formed whenever it
succeeds on a sub-walk of the index. -/
theorem inv_eraseKVGo {s : Omm K V} (hI : Inv s) (v : V) :
    ∀ (rng : List (K × Nat)), rng.Sublist s.table →
      ∀ {r : Omm K V × Nat}, eraseKVGo s v rng = some r → Inv r.1 := by
  intro rng
  induction rng with
  | nil =>
    intro _ r hr
    simp only [eraseKVGo, Option.some.injEq] at hr
    rw [← hr]
    exact hI
  | cons p rest ih =>
    intro hsub r hr
    have hpmem : p ∈ s.table := List.Sublist.mem (List.mem_cons_self p rest) hsub
    cases hf : s.list.find? (fun e => decide (e.id = p.2)) with
    | none =>
      simp only [eraseKVGo, hf] at hr
      exact Option.noConfusion hr
    | some e =>
      by_cases hv : e.val = v
      · simp only [eraseKVGo, hf, if_pos hv, Option.some.injEq] at hr
        rw [← hr]
        refine inv_remove_one hI ?_
        have hex : ∃ q ∈ s.table, (fun q => decide (q = p)) q = true :=
          ⟨p, hpmem, by simp⟩
        obtain ⟨q, hq⟩ := Option.isSome_iff_exists.mp (List.find?_isSome.mpr hex)
        have hqp : q = p := by simpa using List.find?_some hq
        rw [hq, hqp]
      · simp only [eraseKVGo, hf, if_neg hv] at hr
        exact ih ((List.sublist_cons_self p rest).trans hsub) hr

/-- erase(key, value) keeps the state well formed. -/
theorem inv_eraseKV {s : Omm K V} (hI : Inv s) {k : K} {v : V}
    {r : Omm K V × Nat} (he : eraseKV s k v = some r) : Inv r.1 :=
  inv_eraseKVGo hI v (tableRange s.table k) (tableRange_sublist s.table k) he

/-- Repeated insertion keeps the state well formed. -/
theorem inv_foldl_insert :
    ∀ (es : List (Entry K V)) (s : Omm K V), Inv s →
      Inv (es.foldl (fun acc e => (Omm.insert acc e.key e.val).1) s) := by
  intro es
  induction es with
  | nil => intro s hI; exact hI
  | cons e rest ih =>
    intro s hI
    rw [List.foldl_cons]
    exact ih _ (inv_insert hI e.key e.val)

/-- The receiving side of merge is well formed when the receiver was. -/
theorem inv_merge_left {s t : Omm K V} (hI : Inv s) : Inv (merge s t).1 :=
  inv_foldl_insert t.list s hI

/-- The drained side of merge is well formed (it is empty). -/
theorem inv_merge_right (s t : Omm K V) : Inv (merge s t).2 := by
  constructor
  · simp [merge]
  · intro e he; simp [merge] at he
  · simp [merge]
  · simp [merge]

/-- Every reachable state is well formed. -/
theorem reach_inv {s : Omm K V} (hR : Reach s) : Inv s := by
  induction hR with
  | base => exact inv_empty
  | ins s k v _ ih => exact inv_insert ih k v
  | emp s k v _ ih => exact inv_insert ih k v
  | upd s k v _ ih => exact inv_update ih k v
  | delKey s k _ ih => exact inv_eraseKey ih k
  | delIter s h r _ hsome ih => exact inv_eraseIter ih hsome
  | delKV s k v r _ hsome ih => exact inv_eraseKV ih hsome
  | extr s k r _ hsome ih => exact inv_extract ih hsome
  | mrg s t _ _ ihs iht => exact inv_merge_left ihs
  | mrgOther s t _ _ ihs iht => exact inv_merge_right s t
  | srt s cmp _ ih => exact inv_sortOp ih cmp
  | clr s _ ih => exact inv_clear s

/-- A table without entries of key k has an empty equal-range segment for
k. -/
theorem tableRange_filter_not_self :
    ∀ (t : List (K × Nat)) (k : K),
      tableRange (t.filter (fun p => decide (¬ p.1 = k))) k = [] := by
  intro t k
  induction t with
  | nil => rfl
  | cons q rest ih =>
    by_cases hk : q.1 = k
    · rw [List.filter_cons_of_neg (by simp [hk])]
      exact ih
    · rw [List.filter_cons_of_pos (by simp [hk])]
      by_cases hlt : q.1 < k
      · rw [tableRange, List.dropWhile_cons, if_pos (by simp [hlt])]
        exact ih
      · have hgt : k < q.1 := lt_of_le_of_ne (le_of_not_lt hlt) (Ne.symm hk)
        rw [tableRange, List.dropWhile_cons, if_neg (by simp [hlt]),
          List.takeWhile_cons, if_neg (by simp [hgt])]

/-- A table without entries of key k is not found by table.find(k). -/
theorem tableFind_filter_not_self (t : List (K × Nat)) (k : K) :
    tableFind (t.filter (fun p => decide (¬ p.1 = k))) k = none := by
  rw [tableFind, List.find?_eq_none]
  intro p hp
  have hne := (List.mem_filter.mp hp).2
  simp only [decide_eq_true_eq] at hne ⊢
  exact hne

/-- After erase(key) on a well formed state the count of the key is
zero. -/
theorem count_eraseKey_self {s : Omm K V} (hI : Inv s) (k : K) :
    Omm.count (eraseKey s k).1 k = 0 := by
  rw [Omm.count, eraseKey_table hI k, tableRange_filter_not_self]
  rfl

/-- After erase(key) on a well formed state the key is no longer
present. -/
theorem has_eraseKey_self {s : Omm K V} (hI : Inv s) (k : K) :
    Omm.has (eraseKey s k).1 k = false := by
  rw [Omm.has, eraseKey_table hI k, tableFind_filter_not_self]
  rfl

/-- Folding insert over a sequence of (key, value) pairs appends them, in
order, to the (key, value) view of the sequence store. -/
theorem to_vector_foldl :
    ∀ (ops : List (K × V)) (s : Omm K V),
      to_vector (ops.foldl (fun s p => (Omm.insert s p.1 p.2).1) s)
        = to_vector s ++ ops := by
  intro ops
  induction ops with
  | nil => intro s; simp
  | cons p rest ih =>
    intro s
    rw [List.foldl_cons, ih]
    have hstep : to_vector (Omm.insert s p.1 p.2).1 = to_vector s ++ [p] := by
      simp [to_vector, Omm.insert, kv]
    rw [hstep, List.append_assoc, List.singleton_append]

/-- Folding insert over a list of nodes appends their (key, value) views,
in order. -/
theorem to_vector_foldl_entries :
    ∀ (es : List (Entry K V)) (s : Omm K V),
      to_vector (es.foldl (fun acc e => (Omm.insert acc e.key e.val).1) s)
        = to_vector s ++ es.map kv := by
  intro es
  induction es with
  | nil => intro s; simp
  | cons e rest ih =>
    intro s
    rw [List.foldl_cons, ih]
    have hstep : to_vector (Omm.insert s e.key e.val).1
        = to_vector s ++ [kv e] := by
      simp [to_vector, Omm.insert, kv]
    rw [hstep, List.append_assoc, List.singleton_append, List.map_cons]

/-- update(key, value) on a well formed state with at least one index
entry of the key: the table and counter are untouched, every node with the
key gets the new value in place, and the returned iterator is the one
stored in the first index entry of the range. -/
theorem update_hit {s : Omm K V} (hI : Inv s) {k : K} (v : V)
    (hne : tableRange s.table k ≠ []) :
    (update s k v).1.list
        = s.list.map (fun e => if e.key = k then ⟨e.id, e.key, v⟩ else e) ∧
    (update s k v).1.table = s.table ∧
    (update s k v).1.nextId = s.nextId ∧
    (update s k v).2 = (tableRange s.table k).head?.map Prod.snd := by
  unfold update
  split
  next htr => exact absurd htr hne
  next p rest htr =>
    refine ⟨?_, rfl, rfl, by rw [htr]; rfl⟩
    rw [foldl_setVal_eq_map, ← htr]
    refine List.map_congr_left ?_
    intro e he
    by_cases hk : e.key = k
    · rw [if_pos ((mem_range_ids_iff hI he).mpr hk), if_pos hk]
    · rw [if_neg (fun hm => hk ((mem_range_ids_iff hI he).mp hm)), if_neg hk]

/-- Merging the single-node erasure into an adjacent membership filter. -/
theorem filter_erase_merge {l : List (Entry K V)}
    (hnd : (l.map Entry.id).Nodup) (p : K × Nat) (rest : List (K × Nat)) :
    (listErase l p.2).filter (fun e => decide (¬ e.id ∈ rest.map Prod.snd))
      = l.filter (fun e => decide (¬ e.id ∈ (p :: rest).map Prod.snd)) := by
  rw [listErase_eq_filter hnd, List.filter_filter]
  refine List.filter_congr ?_
  intro e2 he2
  by_cases h1 : e2.id = p.2 <;> by_cases h2 : e2.id ∈ rest.map Prod.snd <;>
    simp [h1, h2]

/-- The extract loop, walked along a list of live nodes whose identifiers
spell out the walked index entries: it removes exactly those nodes and
collects their values in walk order. -/
theorem extractGo_along :
    ∀ (rng : List (K × Nat)) (sub l : List (Entry K V)) (acc : List V),
      (l.map Entry.id).Nodup →
      (∀ e ∈ sub, e ∈ l) →
      rng.map Prod.snd = sub.map Entry.id →
      (sub.map Entry.id).Nodup →
      extractGo l acc rng
        = some (l.filter (fun e => decide (¬ e.id ∈ rng.map Prod.snd)),
            acc ++ sub.map Entry.val) := by
  intro rng
  induction rng with
  | nil =>
    intro sub l acc hnd hmem hids hsnd
    have h0 : sub.map Entry.id = [] := by
      rw [← hids]
      rfl
    have hsub : sub = [] := List.map_eq_nil_iff.mp h0
    subst hsub
    simp only [List.map_nil, List.append_nil]
    have hf : l.filter (fun e => decide (¬ e.id ∈ ([] : List Nat))) = l := by
      rw [List.filter_eq_self]
      intro e he
      simp
    rw [hf]
    rfl
  | cons p rest ih =>
    intro sub l acc hnd hmem hids hsnd
    cases sub with
    | nil => simp at hids
    | cons e0 srest =>
      simp only [List.map_cons, List.cons.injEq] at hids
      obtain ⟨hpe, hrest⟩ := hids
      simp only [List.map_cons, List.nodup_cons] at hsnd
      have he0 : e0 ∈ l := hmem e0 (List.mem_cons_self _ _)
      have hfind : l.find? (fun x => decide (x.id = p.2)) = some e0 := by
        rw [hpe]
        exact find?_id_of_mem hnd he0
      have hmem2 : ∀ e ∈ srest, e ∈ listErase l p.2 := by
        intro e he
        rw [listErase_eq_filter hnd]
        refine List.mem_filter.mpr ⟨hmem e (List.mem_cons_of_mem e0 he), ?_⟩
        simp only [decide_eq_true_eq]
        intro hid
        apply hsnd.1
        rw [← hpe, ← hid]
        exact List.mem_map_of_mem Entry.id he
      rw [extractGo_cons_some hfind,
        ih srest (listErase l p.2) (acc ++ [e0.val])
          (((List.eraseP_sublist l).map Entry.id).nodup hnd) hmem2 hrest hsnd.2,
        filter_erase_merge hnd p rest, List.append_assoc, List.singleton_append]
      rfl

/-- extract(key) on a well formed state whose index entries for the key
appear in sequence order: the result collects the values of the nodes with
the key in sequence order and removes exactly those nodes together with
the index segment. -/
theorem extract_along {s : Omm K V} (hI : Inv s) {k : K}
    (halign : (tableRange s.table k).map Prod.snd
      = (s.list.filter (fun e => decide (e.key = k))).map Entry.id) :
    extract s k
      = some (⟨s.list.filter (fun e => decide (¬ e.key = k)),
          tableEraseRange s.table k, s.nextId⟩,
        (s.list.filter (fun e => decide (e.key = k))).map Entry.val) := by
  have hgo := extractGo_along (tableRange s.table k)
    (s.list.filter (fun e => decide (e.key = k))) s.list [] hI.nodup
    (fun e he => (List.mem_filter.mp he).1) halign
    (((List.filter_sublist s.list).map Entry.id).nodup hI.nodup)
  have hfk : s.list.filter
      (fun e => decide (¬ e.id ∈ (tableRange s.table k).map Prod.snd))
      = s.list.filter (fun e => decide (¬ e.key = k)) := by
    refine List.filter_congr ?_
    intro e he
    by_cases hk : e.key = k
    · simp [(mem_range_ids_iff hI he).mpr hk, hk]
    · have hnm : ¬ e.id ∈ (tableRange s.table k).map Prod.snd := by
        intro hmem
        exact hk ((mem_range_ids_iff hI he).mp hmem)
      simp [hnm, hk]
  unfold extract
  rw [hgo, hfk]
  rfl

end Omm

/-- The test scenario of the repository for equal_range and extract: the
insertions (x,10), (x,11), (y,20), (x,12) with the keys x and y modelled
as 0 and 1 (so x orders before y, as the strings do). -/
def sampleXYX : Omm Nat Nat := Omm.runInserts [(0, 10), (0, 11), (1, 20), (0, 12)]

/-- Two insertions with one key: (b,2) then (b,3), the key b modelled as
0. -/
def samplePair : Omm Nat Nat := Omm.runInserts [(0, 2), (0, 3)]

/-- The insertions (a,1), (a,2), (b,3) with a modelled as 0 and b as 1. -/
def sampleAAB : Omm Nat Nat := Omm.runInserts [(0, 1), (0, 2), (1, 3)]

/-- The state reached by inserting (a,1), (a,2) and then sorting by
descending value, so that the sequence order of the two nodes of key a is
the reverse of their key-index order. -/
def sampleSorted : Omm Nat Nat :=
  Omm.sortOp (Omm.insert (Omm.insert Omm.empty 0 1).1 0 2).1
    (fun a b => decide (b.2 < a.2))

/-- A member of a list without duplicates is picked out exactly once by
the filter on equality with it. -/
theorem filter_single_length {A : Type} [DecidableEq A] {l : List A}
    (hnd : l.Nodup) {a : A} (ha : a ∈ l) :
    (l.filter (fun x => decide (x = a))).length = 1 := by
  induction l with
  | nil => cases ha
  | cons b t ih =>
    rcases List.nodup_cons.mp hnd with ⟨hb, ht⟩
    rcases List.mem_cons.mp ha with rfl | hat
    · rw [List.filter_cons_of_pos (by simp)]
      have h0 : t.filter (fun x => decide (x = a)) = [] := by
        rw [List.filter_eq_nil_iff]
        intro x hx
        simp only [decide_eq_true_eq]
        intro hxa
        exact hb (by rw [← hxa]; exact hx)
      rw [h0]
      rfl
    · rw [List.filter_cons_of_neg (by
        simp only [decide_eq_true_eq]
        intro hba
        exact hb (by rw [hba]; exact hat))]
      exact ih ht hat

/-- C3: after every sequence of public operations starting from the empty
container the sequence store and the key index are in 1:1 correspondence
over the live nodes: as a multiset the key index equals the set of
(key, identifier) pairs of the sequence store, every node has exactly one
index entry carrying its key and its handle (stated as the length of the
filter over the index), and every index entry refers to a live node with
its key. -/
theorem reach_table_list_correspondence {K V : Type} [LinearOrder K]
    [DecidableEq V] {s : Omm K V} (hR : Omm.Reach s) :
    s.table.Perm (s.list.map (fun e => (e.key, e.id))) ∧
    (∀ e ∈ s.list,
      (s.table.filter (fun p => decide (p = (e.key, e.id)))).length = 1) ∧
    (∀ p ∈ s.table, ∃ e ∈ s.list, e.key = p.1 ∧ e.id = p.2) := by
  have hI := Omm.reach_inv hR
  refine ⟨hI.corr, ?_, fun p hp => Omm.entry_of_mem_table hI hp⟩
  intro e he
  rw [(hI.corr.filter (fun p => decide (p = (e.key, e.id)))).length_eq]
  exact filter_single_length (Omm.kidx_nodup hI.nodup)
    (List.mem_map_of_mem _ he)

/-- Witness for C3 at the concrete state reached by two insertions. -/
theorem reach_table_list_correspondence_witness :
    (Omm.insert (Omm.insert (Omm.empty : Omm Nat Nat) 0 1).1 0 2).1.table.Perm
      ((Omm.insert (Omm.insert (Omm.empty : Omm Nat Nat) 0 1).1 0 2).1.list.map
        (fun e => (e.key, e.id))) :=
  (reach_table_list_correspondence
    (Omm.Reach.ins _ 0 2 (Omm.Reach.ins _ 0 1 Omm.Reach.base))).1

/-- C7: on every well formed container state, after erase(key) the
sequence store is exactly the original one with every node of the key
removed (all other nodes unchanged, in unchanged relative order), the
count of the key is zero and the key is no longer present. -/
theorem eraseKey_completeness {K V : Type} [LinearOrder K] [DecidableEq V]
    (s : Omm K V) (k : K) (hI : Omm.Inv s) :
    (Omm.eraseKey s k).1.list = s.list.filter (fun e => decide (¬ e.key = k)) ∧
    Omm.count (Omm.eraseKey s k).1 k = 0 ∧
    Omm.has (Omm.eraseKey s k).1 k = false :=
  ⟨Omm.eraseKey_list hI k, Omm.count_eraseKey_self hI k,
    Omm.has_eraseKey_self hI k⟩

/-- Witness for C7 at the concrete state with nodes (0,1), (0,2), (1,3). -/
theorem eraseKey_completeness_witness :
    (Omm.eraseKey sampleAAB 0).1.list
        = sampleAAB.list.filter (fun e => decide (¬ e.key = 0)) ∧
    Omm.count (Omm.eraseKey sampleAAB 0).1 0 = 0 ∧
    Omm.has (Omm.eraseKey sampleAAB 0).1 0 = false :=
  eraseKey_completeness sampleAAB 0 ⟨by decide, by decide, by decide, by decide⟩

/-- C8: any sequence of insertions on the empty container yields forward
iteration in exact call order and reverse iteration in exact reverse
order; every insert appends its node at the end, always succeeds, and
returns the handle of the new node; emplace is embedded as insert. -/
theorem insert_sequence_order {K V : Type} [LinearOrder K] [DecidableEq V]
    (ops : List (K × V)) :
    Omm.to_vector (Omm.runInserts ops) = ops ∧
    ((Omm.runInserts ops : Omm K V).list.reverse).map Omm.kv = ops.reverse ∧
    (∀ (s : Omm K V) (k : K) (v : V),
      (Omm.insert s k v).1.list = s.list ++ [⟨s.nextId, k, v⟩] ∧
      (Omm.insert s k v).2 = some s.nextId ∧
      Omm.emplace s k v = Omm.insert s k v) := by
  have h1 : Omm.to_vector (Omm.runInserts ops : Omm K V) = ops := by
    show Omm.to_vector
      (ops.foldl (fun s p => (Omm.insert s p.1 p.2).1) Omm.empty) = ops
    rw [Omm.to_vector_foldl]
    rfl
  refine ⟨h1, ?_, ?_⟩
  · rw [List.map_reverse]
    exact congrArg List.reverse h1
  · intro s k v
    exact ⟨rfl, rfl, rfl⟩

/-- C9: merge appends the (key, value) sequence of the drained container,
in its order, to the sequence of the receiver, leaves the drained
container empty, and produces a well formed receiver (so the appended
nodes have matching index entries). -/
theorem merge_appends_in_order {K V : Type} [LinearOrder K] [DecidableEq V]
    (s t : Omm K V) (hI : Omm.Inv s) :
    Omm.to_vector (Omm.merge s t).1 = Omm.to_vector s ++ Omm.to_vector t ∧
    (Omm.merge s t).2.list = [] ∧
    (Omm.merge s t).2.table = [] ∧
    Omm.Inv (Omm.merge s t).1 := by
  refine ⟨?_, rfl, rfl, Omm.inv_merge_left hI⟩
  show Omm.to_vector
    (t.list.foldl (fun acc e => (Omm.insert acc e.key e.val).1) s) = _
  rw [Omm.to_vector_foldl_entries]
  rfl

/-- Witness for C9 at two concrete containers. -/
theorem merge_appends_in_order_witness :
    Omm.to_vector (Omm.merge sampleAAB samplePair).1
        = Omm.to_vector sampleAAB ++ Omm.to_vector samplePair ∧
    (Omm.merge sampleAAB samplePair).2.list = [] ∧
    (Omm.merge sampleAAB samplePair).2.table = [] ∧
    Omm.Inv (Omm.merge sampleAAB samplePair).1 :=
  merge_appends_in_order sampleAAB samplePair
    ⟨by decide, by decide, by decide, by decide⟩

/-- C10: on a container with an empty sequence store, front() returns the
same handle as end(): the end sentinel, so the call is a well defined
query comparable against end(). -/
theorem front_empty_is_end {K V : Type} [LinearOrder K] [DecidableEq V]
    (s : Omm K V) (h : s.list = []) : Omm.front s = Omm.endHandle := by
  rw [Omm.front, h]
  rfl

/-- Witness for C10 at the empty container. -/
theorem front_empty_is_end_witness :
    Omm.front (Omm.empty : Omm Nat Nat) = Omm.endHandle ∧
    (Omm.empty : Omm Nat Nat).list = [] :=
  ⟨front_empty_is_end Omm.empty rfl, rfl⟩

/-- C1: the claim fails on the code.  On the state built by inserting
(x,10), (x,11), (y,20), (x,12) the pair returned by equal_range(x) spans
the nodes (x,10), (x,11), (y,20): it contains a node with the key y and
misses (x,12), instead of exactly the three x nodes, because the end
bound is computed as next of the node stored in the first index entry of
the successor key.  The repository test test_equal_range asserts the
claimed behaviour on this very input, so the code contradicts its own
test. -/
theorem equalRange_spans_wrong_entries :
    (Omm.seqSlice sampleXYX.list (Omm.equalRange sampleXYX 0).1
        (Omm.equalRange sampleXYX 0).2).map Omm.kv
      = [(0, 10), (0, 11), (1, 20)] ∧
    (sampleXYX.list.filter (fun e => decide (e.key = 0))).map Omm.kv
      = [(0, 10), (0, 11), (0, 12)] ∧
    ([(0, 10), (0, 11), (1, 20)] : List (Nat × Nat))
      ≠ [(0, 10), (0, 11), (0, 12)] :=
  ⟨by decide, by decide, by decide⟩

/-- C2: the claim fails on the code.  With the two nodes (b,2), (b,3) and
the handle of (b,3), erase(iterator) looks the key up with table.find,
which lands on the index entry of the first inserted sibling (b,2), and
erases that node: afterwards the node the handle referred to, (b,3) with
identifier 1, is still present, and (b,2) is gone. -/
theorem eraseIter_removes_wrong_sibling :
    Omm.eraseIter samplePair 1
      = some (⟨[⟨1, 0, 3⟩], [(0, 1)], 2⟩, none) ∧
    (samplePair.list.find? (fun e => decide (e.id = 1))).map Omm.kv
      = some (0, 3) :=
  ⟨by decide, by decide⟩

/-- C6: the claim fails on the code.  On the state with nodes (a,1),
(a,2), (b,3), erase(a) captures next of the first erased node, which is
the node (a,2) with identifier 1, before erasing it as well: the returned
handle refers to an erased node (identifier 1 is no longer live, only
identifier 2 remains), instead of the node (b,3) that occupies the
position after the erased run, and instead of the end sentinel. -/
theorem eraseKey_returns_erased_handle :
    (Omm.eraseKey sampleAAB 0).2 = some 1 ∧
    ((Omm.eraseKey sampleAAB 0).1.list.map Entry.id) = [2] ∧
    ((Omm.eraseKey sampleAAB 0).1.list.map Omm.kv) = [(1, 3)] :=
  ⟨by decide, by decide, by decide⟩

/-- C5 (counterexample): the claim fails on the code for a reachable
container state.  After inserting (a,1), (a,2) and sorting by descending
value, the sequence order of the two a nodes is the node with identifier
1 first; update(a,9) still returns the iterator stored in the first index
entry, the node with identifier 0, which is not the first node with key a
in sequence order. -/
theorem update_not_first_in_sequence :
    Omm.Reach sampleSorted ∧
    (Omm.update sampleSorted 0 9).2 = some 0 ∧
    (sampleSorted.list.find? (fun e => decide (e.key = 0))).map Entry.id
      = some 1 ∧
    (some 0 : Option Nat) ≠ some 1 :=
  ⟨Omm.Reach.srt _ _ (Omm.Reach.ins _ 0 2 (Omm.Reach.ins _ 0 1 Omm.Reach.base)),
    by decide, by decide, by decide⟩

/-- C5 (amended): on every well formed state, update(key, v) with no node
of the key behaves exactly like insert; with at least one node it sets the
value of every node with the key in place, changes no key, no identifier,
no position, no index structure and no counter, and returns the handle
stored in the first index entry of the key — which is the first entry in
sequence order whenever the index entries of the key are aligned with
sequence order (always the case in states reached without sort). -/
theorem update_overwrites_all {K V : Type} [LinearOrder K] [DecidableEq V]
    (s : Omm K V) (k : K) (v : V) (hI : Omm.Inv s)
    (halign : (Omm.tableRange s.table k).map Prod.snd
      = (s.list.filter (fun e => decide (e.key = k))).map Entry.id) :
    (Omm.count s k = 0 → Omm.update s k v = Omm.insert s k v) ∧
    (Omm.count s k ≠ 0 →
      (Omm.update s k v).1.list
          = s.list.map (fun e => if e.key = k then ⟨e.id, e.key, v⟩ else e) ∧
      (Omm.update s k v).1.table = s.table ∧
      (Omm.update s k v).1.nextId = s.nextId ∧
      (Omm.update s k v).2
          = (s.list.find? (fun e => decide (e.key = k))).map Entry.id) := by
  constructor
  · intro h0
    have htr : Omm.tableRange s.table k = [] := List.length_eq_zero.mp h0
    show Omm.update s k v = Omm.insert s k v
    unfold Omm.update
    rw [htr]
  · intro hne0
    have hne : Omm.tableRange s.table k ≠ [] := by
      intro h
      refine hne0 ?_
      show (Omm.tableRange s.table k).length = 0
      rw [h]
      rfl
    obtain ⟨h1, h2, h3, h4⟩ := Omm.update_hit hI v hne
    refine ⟨h1, h2, h3, ?_⟩
    rw [h4, ← List.head?_map, halign, List.head?_map,
      ← Omm.find?_eq_head?_filter]

/-- Witness for the amended C5 at the concrete state with nodes (0,1),
(0,2), (1,3), key 0, new value 9. -/
theorem update_overwrites_all_witness :
    (Omm.count sampleAAB 0 = 0 →
      Omm.update sampleAAB 0 9 = Omm.insert sampleAAB 0 9) ∧
    (Omm.count sampleAAB 0 ≠ 0 →
      (Omm.update sampleAAB 0 9).1.list
          = sampleAAB.list.map
              (fun e => if e.key = 0 then ⟨e.id, e.key, 9⟩ else e) ∧
      (Omm.update sampleAAB 0 9).1.table = sampleAAB.table ∧
      (Omm.update sampleAAB 0 9).1.nextId = sampleAAB.nextId ∧
      (Omm.update sampleAAB 0 9).2
          = (sampleAAB.list.find? (fun e => decide (e.key = 0))).map Entry.id) :=
  update_overwrites_all sampleAAB 0 9
    ⟨by decide, by decide, by decide, by decide⟩ (by decide)

/-- C4 (counterexample): the claim fails on the code.  On the state built
by inserting (x,100)-style data (here (0,10), (0,11), (1,20), (0,12)),
extract(x) returns the values 10, 11, 12, while the range returned by
equal_range(x) immediately before the call yields the values 10, 11, 20
(the equal_range end bound is wrong, see C1), so the two are not equal. -/
theorem extract_ne_equalRange_yield :
    Omm.extract sampleXYX 0
      = some (⟨[⟨2, 1, 20⟩], [(1, 2)], 4⟩, [10, 11, 12]) ∧
    (Omm.seqSlice sampleXYX.list (Omm.equalRange sampleXYX 0).1
        (Omm.equalRange sampleXYX 0).2).map Entry.val = [10, 11, 20] ∧
    ([10, 11, 12] : List Nat) ≠ [10, 11, 20] :=
  ⟨by decide, by decide, by decide⟩

/-- C4 (amended): on every well formed state whose index entries for the
key appear in sequence order (always the case in states reached without
sort), extract(key) returns exactly the values of the nodes with the key
in sequence order, removes exactly those nodes (all other nodes unchanged,
in unchanged relative order) together with the whole index segment of the
key, and afterwards the count of the key is zero and the key is no longer
present. -/
theorem extract_values_in_order {K V : Type} [LinearOrder K] [DecidableEq V]
    (s : Omm K V) (k : K) (hI : Omm.Inv s)
    (halign : (Omm.tableRange s.table k).map Prod.snd
      = (s.list.filter (fun e => decide (e.key = k))).map Entry.id) :
    Omm.extract s k
        = some (⟨s.list.filter (fun e => decide (¬ e.key = k)),
            Omm.tableEraseRange s.table k, s.nextId⟩,
          (s.list.filter (fun e => decide (e.key = k))).map Entry.val) ∧
    Omm.count (⟨s.list.filter (fun e => decide (¬ e.key = k)),
        Omm.tableEraseRange s.table k, s.nextId⟩ : Omm K V) k = 0 ∧
    Omm.has (⟨s.list.filter (fun e => decide (¬ e.key = k)),
        Omm.tableEraseRange s.table k, s.nextId⟩ : Omm K V) k = false := by
  refine ⟨Omm.extract_along hI halign, ?_, ?_⟩
  · show (Omm.tableRange (Omm.tableEraseRange s.table k) k).length = 0
    rw [Omm.tableEraseRange_eq_filter k hI.sorted, Omm.tableRange_filter_not_self]
    rfl
  · show (Omm.tableFind (Omm.tableEraseRange s.table k) k).isSome = false
    rw [Omm.tableEraseRange_eq_filter k hI.sorted, Omm.tableFind_filter_not_self]
    rfl

/-- Witness for the amended C4 at the concrete test state, key 0. -/
theorem extract_values_in_order_witness :
    Omm.extract sampleXYX 0
        = some (⟨sampleXYX.list.filter (fun e => decide (¬ e.key = 0)),
            Omm.tableEraseRange sampleXYX.table 0, sampleXYX.nextId⟩,
          (sampleXYX.list.filter (fun e => decide (e.key = 0))).map Entry.val) ∧
    Omm.count (⟨sampleXYX.list.filter (fun e => decide (¬ e.key = 0)),
        Omm.tableEraseRange sampleXYX.table 0, sampleXYX.nextId⟩ : Omm Nat Nat)
      0 = 0 ∧
    Omm.has (⟨sampleXYX.list.filter (fun e => decide (¬ e.key = 0)),
        Omm.tableEraseRange sampleXYX.table 0, sampleXYX.nextId⟩ : Omm Nat Nat)
      0 = false :=
  extract_values_in_order sampleXYX 0
    ⟨by decide, by decide, by decide, by decide⟩ (by decide)
